import Mathlib

set_option maxHeartbeats 1000000

namespace DfChunk

/-- A tabular dataset: named columns and rows of cell values.
Cell values are modelled as natural numbers; a grouping key is the value of the
row at the position of the grouping column. -/
structure DataFrame where
  columns : List String
  rows : List (List Nat)
deriving DecidableEq

/-- Value of row `r` in column `c` of dataframe `df` (0 when out of range,
which never happens for well-formed rows after validation). -/
def rowVal (df : DataFrame) (c : String) (r : List Nat) : Nat :=
  r.getD (df.columns.indexOf c) 0

/-- Number of rows of `df` whose value in column `c` equals `k`
(the per-group size computed by `groupby(column_name).size()`). -/
def countKey (df : DataFrame) (c : String) (k : Nat) : Nat :=
  df.rows.countP (fun r => decide (rowVal df c r = k))

/-- Distinct elements of a list, keeping the first occurrence of each. -/
def dedupFirst : List Nat → List Nat
  | [] => []
  | x :: xs => x :: (dedupFirst xs).filter (fun y => decide (y ≠ x))

/-- The distinct grouping-key values of `df` in first-occurrence order. -/
def keysInOrder (df : DataFrame) (c : String) : List Nat :=
  dedupFirst (df.rows.map (rowVal df c))

/-- The `(key, size)` pairs produced by `dataframe.groupby(column_name).size().to_dict()`:
pandas `groupby` sorts the distinct keys ascending (its default `sort=True`),
and `to_dict` keeps that order. -/
def groupbySize (df : DataFrame) (c : String) : List (Nat × Nat) :=
  (List.insertionSort (fun a b => a ≤ b) (keysInOrder df c)).map
    (fun k => (k, countKey df c k))

/-- Modelled from the spec (refinement comparison only): the `(key, size)` pairs
in the order in which distinct key values first appear in the dataset, as the
spec words the boundary algorithm. The source (`groupbySize`) sorts instead. -/
def groupbySizeFirstOcc (df : DataFrame) (c : String) : List (Nat × Nat) :=
  (keysInOrder df c).map (fun k => (k, countKey df c k))

/-- Evaluation of `dataframe[dataframe[column_name].isin(ks)]`: the rows whose value in
column `c` belongs to `ks`, in original order, keeping the columns. -/
def filterByKeys (df : DataFrame) (c : String) (ks : List Nat) : DataFrame :=
  { columns := df.columns
    rows := df.rows.filter (fun r => decide (rowVal df c r ∈ ks)) }

/-- The state of a `DataFrameChunker` instance: the fields set by `__init__`.
After a successful construction `n_approx` is a (positive) integer. -/
structure ChunkerState where
  dataframe : DataFrame
  n_approx : Int
  column_name : String
  buffer : List DataFrame
deriving DecidableEq

/-- Method `add_to_buffer`: append one chunk at the tail of the buffer. -/
def add_to_buffer (s : ChunkerState) (c : DataFrame) : ChunkerState :=
  { s with buffer := s.buffer ++ [c] }

/-- Method `flush_buffer`: return the buffer content and clear the buffer. -/
def flush_buffer (s : ChunkerState) : List DataFrame × ChunkerState :=
  (s.buffer, { s with buffer := [] })

/-- The loop of `chunk`: walk the `(key, size)` pairs, extending `current_chunk`
by the key repeated `size` times; when `len(current_chunk) >= n_approx` the
batch is sealed and the accumulation restarts empty; a nonempty leftover
accumulation becomes a final batch. Returns the sealed key batches in order. -/
def buildBatches (n_approx : Int) : List (Nat × Nat) → List Nat → List (List Nat)
  | [], acc => if acc.isEmpty then [] else [acc]
  | (key, size) :: rest, acc =>
    if n_approx ≤ ((acc ++ List.replicate size key).length : Int) then
      (acc ++ List.replicate size key) :: buildBatches n_approx rest []
    else buildBatches n_approx rest (acc ++ List.replicate size key)

/-- The key batches built by one production run of chunker state `s`. -/
def producedBatches (s : ChunkerState) : List (List Nat) :=
  buildBatches s.n_approx (groupbySize s.dataframe s.column_name) []

/-- The dataframe chunks materialized from the batches of one production run. -/
def producedChunks (s : ChunkerState) : List DataFrame :=
  (producedBatches s).map (filterByKeys s.dataframe s.column_name)

/-- The `chunk` generator of the source, run to exhaustion: each materialized
chunk is passed to `add_to_buffer`, then `flush_buffer` is called and every
returned chunk is yielded in order. Result: (yielded chunks, final state). -/
def chunk (s : ChunkerState) : List DataFrame × ChunkerState :=
  flush_buffer ((producedChunks s).foldl add_to_buffer s)

/-- Modelled from the spec (refinement comparison only): the chunks a
production run would yield if the boundary algorithm walked the groups in
first-occurrence order, as the spec words it. -/
def chunkFirstOcc (s : ChunkerState) : List DataFrame :=
  (buildBatches s.n_approx (groupbySizeFirstOcc s.dataframe s.column_name) []).map
    (filterByKeys s.dataframe s.column_name)

/-- A Python value passed as `n_approx`: an integer, or a value that is not an
instance of `int`. -/
inductive PyVal where
  | int (n : Int)
  | nonInt
deriving DecidableEq

/-- The two construction-time errors: `KeyError` for a grouping column absent
from the dataframe, `ValueError` for a target that is not a positive integer. -/
inductive ChunkerError where
  | invalidKey
  | invalidTarget
deriving DecidableEq

/-- Test `isinstance(n_approx, int) and n_approx > 0`, the negation of the guard
`not isinstance(n_approx, int) or n_approx <= 0` of `validate_params`. -/
def isValidTarget : PyVal → Bool
  | PyVal.int n => decide (0 < n)
  | PyVal.nonInt => false

/-- Method `validate_params`: the grouping column is checked first, then the target. -/
def validate_params (df : DataFrame) (v : PyVal) (c : String) :
    Except ChunkerError Bool :=
  if c ∈ df.columns then
    if isValidTarget v then Except.ok true
    else Except.error ChunkerError.invalidTarget
  else Except.error ChunkerError.invalidKey

/-- Method `__init__`: set the fields (buffer starts empty) and run `validate_params`;
a validation error aborts the construction, so no instance is created. -/
def initChunker (df : DataFrame) (v : PyVal) (c : String) :
    Except ChunkerError ChunkerState :=
  match validate_params df v c with
  | Except.error e => Except.error e
  | Except.ok _ =>
    match v with
    | PyVal.int n =>
      Except.ok { dataframe := df, n_approx := n, column_name := c, buffer := [] }
    | PyVal.nonInt => Except.error ChunkerError.invalidTarget

/-- Whether a produced chunk holds at least one row whose grouping-key value
(in the chunk, which keeps the columns of the dataset) equals `k`. -/
def chunkContainsKey (c : String) (ch : DataFrame) (k : Nat) : Bool :=
  ch.rows.any (fun r => decide (rowVal ch c r = k))

/-! Basic lemmas about the buffer operations and the run equation. -/

theorem filterByKeys_columns (df : DataFrame) (c : String) (ks : List Nat) :
    (filterByKeys df c ks).columns = df.columns := rfl

theorem filterByKeys_rows (df : DataFrame) (c : String) (ks : List Nat) :
    (filterByKeys df c ks).rows =
      df.rows.filter (fun r => decide (rowVal df c r ∈ ks)) := rfl

theorem rowVal_filterByKeys (df : DataFrame) (c : String) (ks : List Nat)
    (r : List Nat) : rowVal (filterByKeys df c ks) c r = rowVal df c r := rfl

theorem foldl_add_to_buffer (s : ChunkerState) (cs : List DataFrame) :
    cs.foldl add_to_buffer s = { s with buffer := s.buffer ++ cs } := by
  induction cs generalizing s with
  | nil => simp
  | cons c cs ih =>
    rw [List.foldl_cons, ih]
    simp [add_to_buffer]

theorem chunk_eq (s : ChunkerState) :
    chunk s = (s.buffer ++ producedChunks s, { s with buffer := [] }) := by
  rw [chunk, foldl_add_to_buffer]
  rfl

theorem chunk_fst (s : ChunkerState) (hbuf : s.buffer = []) :
    (chunk s).1 = producedChunks s := by
  rw [chunk_eq, hbuf]
  rfl

/-! Counting lemmas: how many rows carry a key belonging to a given key list. -/

theorem countP_mem_split (f : List Nat → Nat) (rows : List (List Nat))
    (xs ys : List Nat) (hdis : ∀ a, a ∈ xs → a ∉ ys) :
    rows.countP (fun r => decide (f r ∈ xs ++ ys)) =
      rows.countP (fun r => decide (f r ∈ xs)) +
        rows.countP (fun r => decide (f r ∈ ys)) := by
  induction rows with
  | nil => simp
  | cons r rest ih =>
    simp only [List.countP_cons, ih]
    by_cases h1 : f r ∈ xs
    · have h2 : f r ∉ ys := hdis _ h1
      simp [List.mem_append, h1, h2]
      omega
    · by_cases h2 : f r ∈ ys <;> simp [List.mem_append, h1, h2] <;> omega

theorem countP_mem_cons (f : List Nat → Nat) (rows : List (List Nat))
    (k : Nat) (ks : List Nat) (hk : k ∉ ks) :
    rows.countP (fun r => decide (f r ∈ k :: ks)) =
      rows.countP (fun r => decide (f r = k)) +
        rows.countP (fun r => decide (f r ∈ ks)) := by
  induction rows with
  | nil => simp
  | cons r rest ih =>
    simp only [List.countP_cons, ih]
    by_cases h1 : f r = k
    · have h2 : f r ∉ ks := h1 ▸ hk
      simp [List.mem_cons, h1, h2, hk]
      omega
    · by_cases h2 : f r ∈ ks <;> simp [List.mem_cons, h1, h2] <;> omega

theorem countP_mem_replicate (f : List Nat → Nat) (rows : List (List Nat))
    (s k : Nat) (hs : s ≠ 0) :
    rows.countP (fun r => decide (f r ∈ List.replicate s k)) =
      rows.countP (fun r => decide (f r = k)) := by
  refine List.countP_congr fun r _ => ?_
  simp [List.mem_replicate, hs]

theorem sum_countP_keys (f : List Nat → Nat) (rows : List (List Nat))
    (ks : List Nat) (hnd : ks.Nodup) :
    (ks.map (fun k => rows.countP (fun r => decide (f r = k)))).sum =
      rows.countP (fun r => decide (f r ∈ ks)) := by
  induction ks with
  | nil => simp
  | cons k ks ih =>
    rw [List.map_cons, List.sum_cons, ih (List.nodup_cons.mp hnd).2,
      countP_mem_cons f rows k ks (List.nodup_cons.mp hnd).1]

/-! Lemmas about the groupby aggregation. -/

theorem mem_dedupFirst {a : Nat} {l : List Nat} : a ∈ dedupFirst l ↔ a ∈ l := by
  induction l with
  | nil => simp [dedupFirst]
  | cons x xs ih =>
    by_cases hax : a = x <;> simp [dedupFirst, List.mem_filter, ih, hax]

theorem nodup_dedupFirst (l : List Nat) : (dedupFirst l).Nodup := by
  induction l with
  | nil => simp [dedupFirst]
  | cons x xs ih =>
    rw [dedupFirst]
    refine List.nodup_cons.mpr ⟨?_, ih.filter _⟩
    intro hmem
    have h := (List.mem_filter.mp hmem).2
    simp at h

theorem mem_keysInOrder {df : DataFrame} {c : String} {k : Nat} :
    k ∈ keysInOrder df c ↔ k ∈ df.rows.map (rowVal df c) := mem_dedupFirst

theorem groupbySize_map_fst (df : DataFrame) (c : String) :
    (groupbySize df c).map Prod.fst =
      List.insertionSort (fun a b => a ≤ b) (keysInOrder df c) := by
  rw [groupbySize, List.map_map]
  simp [Function.comp_def]

theorem groupbySize_keys_nodup (df : DataFrame) (c : String) :
    ((groupbySize df c).map Prod.fst).Nodup := by
  rw [groupbySize_map_fst]
  exact ((List.perm_insertionSort _ _).nodup_iff).mpr (nodup_dedupFirst _)

theorem mem_groupbySize_keys {df : DataFrame} {c : String} {k : Nat} :
    k ∈ (groupbySize df c).map Prod.fst ↔ k ∈ df.rows.map (rowVal df c) := by
  rw [groupbySize_map_fst, (List.perm_insertionSort _ _).mem_iff]
  exact mem_keysInOrder

theorem groupbySize_counts (df : DataFrame) (c : String) :
    ∀ p ∈ groupbySize df c,
      df.rows.countP (fun r => decide (rowVal df c r = p.1)) = p.2 := by
  intro p hp
  obtain ⟨k, _, rfl⟩ := List.mem_map.mp hp
  rfl

theorem groupbySize_pos (df : DataFrame) (c : String) :
    ∀ p ∈ groupbySize df c, 1 ≤ p.2 := by
  intro p hp
  rw [groupbySize] at hp
  obtain ⟨k, hk, rfl⟩ := List.mem_map.mp hp
  have hkm : k ∈ df.rows.map (rowVal df c) :=
    mem_keysInOrder.mp ((List.perm_insertionSort _ _).mem_iff.mp hk)
  obtain ⟨r, hr, hrk⟩ := List.mem_map.mp hkm
  have hpos : 0 < countKey df c k :=
    List.countP_pos_iff.mpr ⟨r, hr, by simp [hrk]⟩
  simpa using hpos

theorem groupbySize_covers (df : DataFrame) (c : String) :
    ∀ r ∈ df.rows, rowVal df c r ∈ (groupbySize df c).map Prod.fst := by
  intro r hr
  exact mem_groupbySize_keys.mpr (List.mem_map.mpr ⟨r, hr, rfl⟩)

/-! Lemmas about the batch-building loop of the chunk generator. -/

theorem buildBatches_countP_mem (n : Int) (k : Nat) (gs : List (Nat × Nat)) :
    ∀ acc : List Nat,
      (∀ p ∈ gs, 1 ≤ p.2) → (gs.map Prod.fst).Nodup →
      (k ∈ acc → k ∉ gs.map Prod.fst) →
      (buildBatches n gs acc).countP (fun b => decide (k ∈ b)) =
        if k ∈ acc ∨ k ∈ gs.map Prod.fst then 1 else 0 := by
  induction gs with
  | nil =>
    intro acc _ _ _
    rw [buildBatches]
    by_cases ha : acc.isEmpty
    · have h0 : acc = [] := by simpa [List.isEmpty_iff] using ha
      subst h0
      simp
    · by_cases hka : k ∈ acc <;> simp [ha, hka]
  | cons p rest ih =>
    obtain ⟨k0, s⟩ := p
    intro acc hpos hnd hdis
    have hs : 1 ≤ s := hpos (k0, s) (by simp)
    have hs0 : s ≠ 0 := by omega
    simp only [List.map_cons, List.nodup_cons] at hnd
    obtain ⟨hnd1, hnd2⟩ := hnd
    have hpos2 : ∀ q ∈ rest, 1 ≤ q.2 := fun q hq => hpos q (by simp [hq])
    have hmem2 : k ∈ acc ++ List.replicate s k0 ↔ k ∈ acc ∨ k = k0 := by
      simp [List.mem_append, List.mem_replicate, hs0]
    have hdis0 : k ∈ acc → ¬(k = k0 ∨ k ∈ rest.map Prod.fst) := by
      intro hka
      simpa [List.map_cons] using hdis hka
    rw [buildBatches]
    simp only [List.map_cons, List.mem_cons]
    by_cases hseal : n ≤ ((acc ++ List.replicate s k0).length : Int)
    · rw [if_pos hseal, List.countP_cons,
        ih [] hpos2 hnd2 (fun h => absurd h (List.not_mem_nil k))]
      by_cases hk2 : k ∈ acc ++ List.replicate s k0
      · have hkr : k ∉ rest.map Prod.fst := by
          rcases hmem2.mp hk2 with hka | rfl
          · exact fun hr => hdis0 hka (Or.inr hr)
          · exact hnd1
        rcases hmem2.mp hk2 with hka | hkk0
        · simp [hk2, hkr, hka]
        · simp [hk2, hkr, hkk0, hs0]
          intro x hx
          exact (hkk0 ▸ hkr) (List.mem_map.mpr ⟨(k0, x), hx, rfl⟩)
      · have hknots : ¬(k ∈ acc ∨ k = k0) := fun h => hk2 (hmem2.mpr h)
        push_neg at hknots
        obtain ⟨hka, hkk0⟩ := hknots
        by_cases hkr : k ∈ rest.map Prod.fst
        · simp [hk2, hkr, hka, hkk0]
        · simp [hk2, hkr, hka, hkk0]
    · rw [if_neg hseal,
        ih (acc ++ List.replicate s k0) hpos2 hnd2 ?hfr]
      · have hiff : (k ∈ acc ++ List.replicate s k0 ∨ k ∈ rest.map Prod.fst) ↔
            (k ∈ acc ∨ k = k0 ∨ k ∈ rest.map Prod.fst) := by
          rw [hmem2]
          tauto
        simp only [hiff]
      case hfr =>
        intro hk2 hkr
        rcases hmem2.mp hk2 with hka | rfl
        · exact hdis0 hka (Or.inr hkr)
        · exact hnd1 hkr

theorem buildBatches_faithful (f : List Nat → Nat) (rows : List (List Nat))
    (n : Int) (gs : List (Nat × Nat)) :
    ∀ acc : List Nat,
      (∀ p ∈ gs, rows.countP (fun r => decide (f r = p.1)) = p.2) →
      (∀ p ∈ gs, 1 ≤ p.2) →
      (gs.map Prod.fst).Nodup →
      (∀ p ∈ gs, p.1 ∉ acc) →
      rows.countP (fun r => decide (f r ∈ acc)) = acc.length →
      ∀ b ∈ buildBatches n gs acc,
        rows.countP (fun r => decide (f r ∈ b)) = b.length := by
  induction gs with
  | nil =>
    intro acc _ _ _ _ hacc b hb
    rw [buildBatches] at hb
    by_cases ha : acc.isEmpty
    · simp [ha] at hb
    · simp [ha] at hb
      subst hb
      exact hacc
  | cons p rest ih =>
    obtain ⟨k0, s⟩ := p
    intro acc hcnt hpos hnd hfresh hacc b hb
    have hs : 1 ≤ s := hpos (k0, s) (by simp)
    have hs0 : s ≠ 0 := by omega
    simp only [List.map_cons, List.nodup_cons] at hnd
    obtain ⟨hnd1, hnd2⟩ := hnd
    have hk0acc : k0 ∉ acc := hfresh (k0, s) (by simp)
    have hcnt2 : ∀ q ∈ rest, rows.countP (fun r => decide (f r = q.1)) = q.2 :=
      fun q hq => hcnt q (by simp [hq])
    have hpos2 : ∀ q ∈ rest, 1 ≤ q.2 := fun q hq => hpos q (by simp [hq])
    have hd : ∀ a, a ∈ acc → a ∉ List.replicate s k0 := by
      intro a ha hrep
      rw [List.mem_replicate] at hrep
      exact hk0acc (hrep.2 ▸ ha)
    have hacc2 : rows.countP (fun r => decide (f r ∈ acc ++ List.replicate s k0)) =
        (acc ++ List.replicate s k0).length := by
      rw [countP_mem_split f rows acc (List.replicate s k0) hd, hacc,
        countP_mem_replicate f rows s k0 hs0, hcnt (k0, s) (by simp)]
      simp
    rw [buildBatches] at hb
    by_cases hseal : n ≤ ((acc ++ List.replicate s k0).length : Int)
    · rw [if_pos hseal] at hb
      rcases List.mem_cons.mp hb with rfl | hb2
      · exact hacc2
      · exact ih [] hcnt2 hpos2 hnd2 (fun q _ => List.not_mem_nil q.1) (by simp) b hb2
    · rw [if_neg hseal] at hb
      refine ih (acc ++ List.replicate s k0) hcnt2 hpos2 hnd2 ?_ hacc2 b hb
      intro q hq hmem
      rcases List.mem_append.mp hmem with hqa | hqr
      · exact hfresh q (by simp [hq]) hqa
      · rw [List.mem_replicate] at hqr
        exact hnd1 (hqr.2 ▸ List.mem_map.mpr ⟨q, hq, rfl⟩)

theorem buildBatches_dropLast (n : Int) (gs : List (Nat × Nat)) :
    ∀ acc : List Nat, ∀ b ∈ (buildBatches n gs acc).dropLast,
      n ≤ (b.length : Int) := by
  induction gs with
  | nil =>
    intro acc b hb
    rw [buildBatches] at hb
    by_cases ha : acc.isEmpty <;> simp [ha] at hb
  | cons p rest ih =>
    obtain ⟨k0, s⟩ := p
    intro acc b hb
    rw [buildBatches] at hb
    by_cases hseal : n ≤ ((acc ++ List.replicate s k0).length : Int)
    · rw [if_pos hseal] at hb
      cases hrec : buildBatches n rest [] with
      | nil =>
        rw [hrec] at hb
        simp at hb
      | cons x xs =>
        rw [hrec, List.dropLast_cons₂] at hb
        rcases List.mem_cons.mp hb with rfl | hb2
        · exact hseal
        · exact ih [] b (by rw [hrec]; exact hb2)
    · rw [if_neg hseal] at hb
      exact ih (acc ++ List.replicate s k0) b hb

/-! Concrete dataframes used as counterexamples and witnesses. -/

/-- Two rows whose keys are out of ascending order: key 2 appears first. -/
def dfCex : DataFrame := ⟨["k"], [[2], [1]]⟩

/-- Two rows sharing the single key 5. -/
def dfPair : DataFrame := ⟨["k"], [[5], [5]]⟩

/-- A one-row chunk used to exercise the staging buffer. -/
def extraChunk : DataFrame := ⟨["k"], [[9]]⟩

/-- Nine rows with key pattern A,A,B,B,B,C,C,C,D encoded as 0,0,1,1,1,2,2,2,3. -/
def dfScenario : DataFrame := ⟨["k"], [[0], [0], [1], [1], [1], [2], [2], [2], [3]]⟩

/-- Three rows: two with key 5 and one with key 7. -/
def dfTriple : DataFrame := ⟨["k"], [[5], [5], [7]]⟩

/-- C1 counterexample: with keys appearing in the order 2, 1 and a target of 1,
the run yields the chunk of key 1 before the chunk of key 2, not the chunks in
first-occurrence order: the claimed walk order is refuted at this input. -/
theorem claim1_counterexample :
    (chunk ⟨dfCex, 1, "k", []⟩).1 ≠ chunkFirstOcc ⟨dfCex, 1, "k", []⟩ := by
  decide

/-- C1 (amended): the boundary algorithm walks the same `(key, count)` pairs as
first-occurrence grouping, but in ascending sorted key order (the pandas
groupby default), so chunks are yielded in sorted key order, not in the order
groups first appear in the dataset. -/
theorem claim1_amended_sorted_walk (df : DataFrame) (c : String) :
    List.Sorted (fun a b : Nat => a ≤ b) ((groupbySize df c).map Prod.fst) ∧
    List.Perm (groupbySize df c) (groupbySizeFirstOcc df c) := by
  constructor
  · rw [groupbySize_map_fst]
    exact List.sorted_insertionSort _ _
  · rw [groupbySize, groupbySizeFirstOcc]
    exact (List.perm_insertionSort _ _).map _

/-- C2 counterexample: at the same input the concatenation of the yielded
chunks lists the key-1 row before the key-2 row, while the dataset stores them
in the opposite order, so the concatenation differs from the dataset. -/
theorem claim2_counterexample :
    ((chunk ⟨dfCex, 1, "k", []⟩).1.map DataFrame.rows).flatten ≠ dfCex.rows := by
  decide

/-- C5 counterexample: a chunk staged before the run is emitted at the head of
the run output, so a production run does not begin with an empty buffer. -/
theorem claim5_counterexample :
    (chunk (add_to_buffer ⟨dfPair, 2, "k", []⟩ extraChunk)).1 =
      [extraChunk, dfPair] := by
  decide

/-- C5 (amended): the buffer is empty at construction and is left empty by the
flush that ends a run, but a run does not reset it at the start: the yielded
list is the prior buffer content followed by the chunks of this run. -/
theorem claim5_amended_buffer (s : ChunkerState) :
    (chunk s).1 = s.buffer ++ producedChunks s ∧ (chunk s).2.buffer = [] := by
  rw [chunk_eq]
  exact ⟨rfl, rfl⟩

/-- C6: for key pattern A,A,B,B,B,C,C,C,D and a target of 2, the run yields
exactly four chunks of row counts 2, 3, 3, 1 in that order. -/
theorem claim6_concrete_scenario :
    (chunk ⟨dfScenario, 2, "k", []⟩).1.map (fun ch => ch.rows.length) =
      [2, 3, 3, 1] := by
  decide

/-- C8: starting from an empty buffer, staging the chunks of `cs` in order and
then draining returns exactly `cs` in FIFO order and leaves the buffer empty;
each single stage grows the buffer length by one. -/
theorem claim8_stage_drain_fifo (s : ChunkerState) (hbuf : s.buffer = [])
    (cs : List DataFrame) :
    (flush_buffer (cs.foldl add_to_buffer s)).1 = cs ∧
    (flush_buffer (cs.foldl add_to_buffer s)).2.buffer = [] ∧
    ∀ t : ChunkerState, ∀ c : DataFrame,
      (add_to_buffer t c).buffer.length = t.buffer.length + 1 := by
  rw [foldl_add_to_buffer, hbuf]
  refine ⟨rfl, rfl, fun t c => ?_⟩
  simp [add_to_buffer]

theorem claim8_witness :
    (flush_buffer
        ([extraChunk, dfPair].foldl add_to_buffer ⟨dfPair, 2, "k", []⟩)).1 =
      [extraChunk, dfPair] :=
  (claim8_stage_drain_fifo ⟨dfPair, 2, "k", []⟩ rfl [extraChunk, dfPair]).1

/-- C9: when the grouping column is present, a target that is zero, negative,
or not an integer makes construction fail with the invalid-target error, so no
chunker state is produced. -/
theorem claim9_invalid_target (df : DataFrame) (v : PyVal) (c : String)
    (hc : c ∈ df.columns)
    (hv : v = PyVal.nonInt ∨ ∃ n : Int, v = PyVal.int n ∧ n ≤ 0) :
    initChunker df v c = Except.error ChunkerError.invalidTarget := by
  have hval : isValidTarget v = false := by
    rcases hv with h | ⟨n, hn, hle⟩
    · rw [h]; rfl
    · rw [hn]; simp [isValidTarget]; omega
  simp [initChunker, validate_params, hc, hval]

theorem claim9_witness :
    initChunker dfPair (PyVal.int 0) "k" = Except.error ChunkerError.invalidTarget :=
  claim9_invalid_target dfPair (PyVal.int 0) "k" (by decide)
    (Or.inr ⟨0, rfl, le_refl 0⟩)

/-- C10: validation checks the grouping column before the target, so when both
are invalid the construction fails with the invalid-key error. -/
theorem claim10_key_checked_first (df : DataFrame) (v : PyVal) (c : String)
    (hc : c ∉ df.columns)
    (_hv : v = PyVal.nonInt ∨ ∃ n : Int, v = PyVal.int n ∧ n ≤ 0) :
    initChunker df v c = Except.error ChunkerError.invalidKey := by
  simp [initChunker, validate_params, hc]

theorem claim10_witness :
    initChunker dfPair PyVal.nonInt "zz" = Except.error ChunkerError.invalidKey :=
  claim10_key_checked_first dfPair PyVal.nonInt "zz" (by decide) (Or.inl rfl)

/-- C4: when a run starts on an empty buffer (the state left by construction),
every yielded chunk except possibly the final one holds at least `n_approx`
rows: the accumulation is sealed only once its row total reaches the target. -/
theorem claim4_threshold (s : ChunkerState) (hbuf : s.buffer = []) :
    ∀ ch ∈ (chunk s).1.dropLast, s.n_approx ≤ (ch.rows.length : Int) := by
  intro ch hch
  rw [chunk_fst s hbuf, producedChunks, ← List.map_dropLast] at hch
  obtain ⟨b, hb, rfl⟩ := List.mem_map.mp hch
  have hb2 : b ∈ producedBatches s := List.mem_of_mem_dropLast hb
  rw [producedBatches] at hb2
  have hlen := buildBatches_faithful (rowVal s.dataframe s.column_name)
    s.dataframe.rows s.n_approx (groupbySize s.dataframe s.column_name) []
    (groupbySize_counts _ _) (groupbySize_pos _ _) (groupbySize_keys_nodup _ _)
    (fun q _ => List.not_mem_nil q.1) (by simp) b hb2
  rw [producedBatches] at hb
  have hthr := buildBatches_dropLast s.n_approx
    (groupbySize s.dataframe s.column_name) [] b hb
  have hfl : (filterByKeys s.dataframe s.column_name b).rows.length = b.length := by
    rw [filterByKeys_rows, ← List.countP_eq_length_filter]
    exact hlen
  rw [hfl]
  exact hthr

theorem claim4_witness :
    (⟨dfTriple, 2, "k", []⟩ : ChunkerState).n_approx ≤
      (((⟨["k"], [[5], [5]]⟩ : DataFrame)).rows.length : Int) :=
  claim4_threshold ⟨dfTriple, 2, "k", []⟩ rfl ⟨["k"], [[5], [5]]⟩ (by decide)

theorem chunkContainsKey_filterByKeys (df : DataFrame) (c : String)
    (b : List Nat) (k : Nat) (hk : ∃ r ∈ df.rows, rowVal df c r = k) :
    chunkContainsKey c (filterByKeys df c b) k = decide (k ∈ b) := by
  by_cases hkb : k ∈ b
  · obtain ⟨r, hr, hrk⟩ := hk
    have hrmem : r ∈ (filterByKeys df c b).rows := by
      rw [filterByKeys_rows]
      exact List.mem_filter.mpr ⟨hr, by simp [hrk, hkb]⟩
    have hany : chunkContainsKey c (filterByKeys df c b) k = true :=
      List.any_eq_true.mpr ⟨r, hrmem, by simp [rowVal_filterByKeys, hrk]⟩
    simp [hany, hkb]
  · have hany : chunkContainsKey c (filterByKeys df c b) k = false := by
      rw [chunkContainsKey]
      refine List.any_eq_false.mpr ?_
      intro r hrmem
      rw [filterByKeys_rows] at hrmem
      have h2 := (List.mem_filter.mp hrmem).2
      simp only [decide_eq_true_eq] at h2
      simp only [rowVal_filterByKeys, decide_eq_true_eq]
      intro hrk
      exact hkb (hrk ▸ h2)
    simp [hany, hkb]

/-- C3: when a run starts on an empty buffer, every grouping-key value present
in the dataset occurs in exactly one yielded chunk, and a chunk that contains
the key contains every dataset row bearing that key. -/
theorem claim3_one_chunk_per_key (s : ChunkerState) (hbuf : s.buffer = [])
    (k : Nat)
    (hk : ∃ r ∈ s.dataframe.rows, rowVal s.dataframe s.column_name r = k) :
    (chunk s).1.countP (fun ch => chunkContainsKey s.column_name ch k) = 1 ∧
    ∀ ch ∈ (chunk s).1, chunkContainsKey s.column_name ch k = true →
      ∀ r ∈ s.dataframe.rows, rowVal s.dataframe s.column_name r = k →
        r ∈ ch.rows := by
  have hkeys : k ∈ (groupbySize s.dataframe s.column_name).map Prod.fst := by
    obtain ⟨r, hr, hrk⟩ := hk
    exact hrk ▸ groupbySize_covers _ _ r hr
  constructor
  · rw [chunk_fst s hbuf, producedChunks, List.countP_map]
    have hcongr : ∀ b ∈ producedBatches s,
        ((fun ch => chunkContainsKey s.column_name ch k) ∘
          filterByKeys s.dataframe s.column_name) b = true ↔
        (fun b => decide (k ∈ b)) b = true := by
      intro b _
      simp only [Function.comp_apply]
      rw [chunkContainsKey_filterByKeys _ _ _ _ hk]
    rw [List.countP_congr hcongr, producedBatches,
      buildBatches_countP_mem s.n_approx k (groupbySize s.dataframe s.column_name)
        [] (groupbySize_pos _ _) (groupbySize_keys_nodup _ _)
        (fun h => absurd h (List.not_mem_nil k))]
    simp [hkeys]
  · intro ch hch hcont r hr hrk
    rw [chunk_fst s hbuf, producedChunks] at hch
    obtain ⟨b, _, rfl⟩ := List.mem_map.mp hch
    rw [chunkContainsKey_filterByKeys _ _ _ _ hk] at hcont
    simp only [decide_eq_true_eq] at hcont
    rw [filterByKeys_rows]
    exact List.mem_filter.mpr ⟨hr, by simp [hrk, hcont]⟩

theorem claim3_witness :
    (chunk ⟨dfTriple, 2, "k", []⟩).1.countP
        (fun ch => chunkContainsKey "k" ch 5) = 1 :=
  (claim3_one_chunk_per_key ⟨dfTriple, 2, "k", []⟩ rfl 5 (by decide)).1

theorem countP_filter_eq (x : List Nat) (l : List (List Nat))
    (p : List Nat → Bool) :
    (l.filter p).countP (fun r => decide (r = x)) =
      if p x then l.countP (fun r => decide (r = x)) else 0 := by
  by_cases hpx : p x
  · rw [if_pos hpx]
    induction l with
    | nil => simp
    | cons a l ih =>
      rw [List.filter_cons]
      by_cases hpa : p a
      · rw [if_pos hpa, List.countP_cons, List.countP_cons, ih]
      · rw [if_neg hpa, ih, List.countP_cons]
        have hax : ¬(a = x) := fun h => hpa (h ▸ hpx)
        simp [hax]
  · rw [if_neg hpx]
    refine List.countP_eq_zero.mpr ?_
    intro a ha
    simp only [decide_eq_true_eq]
    intro hax
    subst hax
    exact hpx ((List.mem_filter.mp ha).2)

theorem sum_map_ite_count (bs : List (List Nat)) (q : List Nat → Bool)
    (c : Nat) :
    (bs.map (fun b => if q b then c else 0)).sum = c * bs.countP q := by
  induction bs with
  | nil => simp
  | cons b bs ih =>
    rw [List.map_cons, List.sum_cons, ih, List.countP_cons]
    by_cases h : q b
    · simp [h]
      ring
    · simp [h]

theorem countP_flatten (p : List Nat → Bool) (L : List (List (List Nat))) :
    L.flatten.countP p = (L.map (List.countP p)).sum := by
  induction L with
  | nil => rfl
  | cons l L ih =>
    rw [List.flatten_cons, List.countP_append, List.map_cons, List.sum_cons, ih]

/-- C2 (amended): the concatenation in emission order of the rows of all
chunks of one run is a permutation of the input dataset rows (no row is lost
or duplicated), and each single chunk keeps the original relative row order;
the overall concatenation, however, follows sorted key order and can differ
from the original dataset order. -/
theorem claim2_amended_permutation (s : ChunkerState) (hbuf : s.buffer = []) :
    List.Perm (((chunk s).1.map DataFrame.rows).flatten) s.dataframe.rows ∧
    ∀ ch ∈ (chunk s).1, List.Sublist ch.rows s.dataframe.rows := by
  constructor
  · rw [chunk_fst s hbuf, producedChunks]
    refine List.perm_iff_count.mpr fun x => ?_
    show (((producedBatches s).map
        (filterByKeys s.dataframe s.column_name)).map DataFrame.rows).flatten.countP
          (fun r => decide (r = x)) =
      s.dataframe.rows.countP (fun r => decide (r = x))
    rw [countP_flatten, List.map_map, List.map_map]
    have hmap : (producedBatches s).map
        ((List.countP (fun r => decide (r = x)) ∘ DataFrame.rows) ∘
          filterByKeys s.dataframe s.column_name) =
        (producedBatches s).map (fun b =>
          if decide (rowVal s.dataframe s.column_name x ∈ b) then
            s.dataframe.rows.countP (fun r => decide (r = x)) else 0) := by
      refine List.map_congr_left fun b _ => ?_
      exact countP_filter_eq x s.dataframe.rows
        (fun r => decide (rowVal s.dataframe s.column_name r ∈ b))
    rw [hmap, sum_map_ite_count]
    by_cases hx : x ∈ s.dataframe.rows
    · have h1 : (producedBatches s).countP
          (fun b => decide (rowVal s.dataframe s.column_name x ∈ b)) = 1 := by
        rw [producedBatches,
          buildBatches_countP_mem s.n_approx (rowVal s.dataframe s.column_name x)
            (groupbySize s.dataframe s.column_name) [] (groupbySize_pos _ _)
            (groupbySize_keys_nodup _ _)
            (fun h => absurd h (List.not_mem_nil _))]
        simp [groupbySize_covers _ _ x hx]
      rw [h1, Nat.mul_one]
    · have h0 : s.dataframe.rows.countP (fun r => decide (r = x)) = 0 := by
        refine List.countP_eq_zero.mpr fun a ha => ?_
        simp only [decide_eq_true_eq]
        intro hax
        exact hx (hax ▸ ha)
      rw [h0, Nat.zero_mul]
  · intro ch hch
    rw [chunk_fst s hbuf, producedChunks] at hch
    obtain ⟨b, _, rfl⟩ := List.mem_map.mp hch
    rw [filterByKeys_rows]
    exact List.filter_sublist _

theorem claim2_witness :
    List.Perm (((chunk ⟨dfCex, 1, "k", []⟩).1.map DataFrame.rows).flatten)
      (⟨dfCex, 1, "k", []⟩ : ChunkerState).dataframe.rows :=
  (claim2_amended_permutation ⟨dfCex, 1, "k", []⟩ rfl).1

/-- The keys of a group list, each repeated as many times as its size: the
value the accumulation reaches when no batch is ever sealed early. -/
def flatGroups : List (Nat × Nat) → List Nat
  | [] => []
  | (k, s) :: rest => List.replicate s k ++ flatGroups rest

theorem flatGroups_length (gs : List (Nat × Nat)) :
    (flatGroups gs).length = (gs.map Prod.snd).sum := by
  induction gs with
  | nil => rfl
  | cons p rest ih =>
    obtain ⟨k, s⟩ := p
    simp [flatGroups, ih]

theorem mem_flatGroups {gs : List (Nat × Nat)} {k : Nat}
    (hpos : ∀ p ∈ gs, 1 ≤ p.2) (hk : k ∈ gs.map Prod.fst) :
    k ∈ flatGroups gs := by
  induction gs with
  | nil => simp at hk
  | cons p rest ih =>
    obtain ⟨k0, s⟩ := p
    rw [flatGroups]
    simp only [List.map_cons, List.mem_cons] at hk
    rcases hk with rfl | hk2
    · refine List.mem_append.mpr (Or.inl ?_)
      rw [List.mem_replicate]
      refine ⟨?_, rfl⟩
      have := hpos (k, s) (by simp)
      omega
    · exact List.mem_append.mpr
        (Or.inr (ih (fun q hq => hpos q (by simp [hq])) hk2))

theorem buildBatches_exact (n : Int) (gs : List (Nat × Nat)) :
    ∀ acc : List Nat,
      (∀ p ∈ gs, 1 ≤ p.2) → gs ≠ [] →
      (acc.length : Int) + ((flatGroups gs).length : Int) = n →
      buildBatches n gs acc = [acc ++ flatGroups gs] := by
  induction gs with
  | nil =>
    intro acc _ hne _
    exact absurd rfl hne
  | cons p rest ih =>
    obtain ⟨k0, s⟩ := p
    intro acc hpos _ hsum
    rw [flatGroups, List.length_append, List.length_replicate] at hsum
    rw [buildBatches]
    by_cases hrest : rest = []
    · subst hrest
      simp only [flatGroups, List.length_nil] at hsum
      have hlen : ((acc ++ List.replicate s k0).length : Int) = n := by
        rw [List.length_append, List.length_replicate]
        push_cast at hsum ⊢
        omega
      rw [if_pos (le_of_eq hlen.symm), buildBatches]
      simp [flatGroups]
    · have h1 : 1 ≤ (flatGroups rest).length := by
        cases rest with
        | nil => exact absurd rfl hrest
        | cons q qs =>
          obtain ⟨k1, s1⟩ := q
          have hs1 : 1 ≤ s1 := hpos (k1, s1) (by simp)
          rw [flatGroups, List.length_append, List.length_replicate]
          omega
      have hno : ¬ n ≤ ((acc ++ List.replicate s k0).length : Int) := by
        rw [List.length_append, List.length_replicate]
        push_cast at hsum ⊢
        omega
      rw [if_neg hno,
        ih (acc ++ List.replicate s k0) (fun q hq => hpos q (by simp [hq])) hrest
          (by rw [List.length_append, List.length_replicate]; push_cast at hsum ⊢; omega),
        flatGroups, List.append_assoc]

theorem sum_sizes_groupbySize (df : DataFrame) (c : String) :
    ((groupbySize df c).map Prod.snd).sum = df.rows.length := by
  rw [groupbySize, List.map_map]
  have hfun : (Prod.snd ∘ fun k => (k, countKey df c k)) =
      fun k => df.rows.countP (fun r => decide (rowVal df c r = k)) := rfl
  rw [hfun]
  have hnd : (List.insertionSort (fun a b => a ≤ b) (keysInOrder df c)).Nodup :=
    ((List.perm_insertionSort _ _).nodup_iff).mpr (nodup_dedupFirst _)
  rw [sum_countP_keys (rowVal df c) df.rows _ hnd]
  refine List.countP_eq_length.mpr fun r hr => ?_
  have hcov := groupbySize_covers df c r hr
  rw [groupbySize_map_fst] at hcov
  simpa using hcov

theorem filterByKeys_eq_self (df : DataFrame) (c : String) (ks : List Nat)
    (hcov : ∀ r ∈ df.rows, rowVal df c r ∈ ks) :
    filterByKeys df c ks = df := by
  obtain ⟨cols, rows⟩ := df
  simp only [filterByKeys, DataFrame.mk.injEq, true_and]
  refine List.filter_eq_self.mpr fun r hr => ?_
  simpa using hcov r hr

/-- C7: for a validly constructed chunker (positive integer target, empty
buffer) whose dataset row count equals the target exactly, the run yields
exactly one chunk, and that chunk is the entire dataset. -/
theorem claim7_exact_fit (s : ChunkerState) (hbuf : s.buffer = [])
    (hpos : 1 ≤ s.n_approx)
    (hfit : (s.dataframe.rows.length : Int) = s.n_approx) :
    (chunk s).1 = [s.dataframe] := by
  have hrows : s.dataframe.rows ≠ [] := by
    intro h
    rw [h] at hfit
    simp at hfit
    omega
  have hne : groupbySize s.dataframe s.column_name ≠ [] := by
    intro hgs
    have hsum := sum_sizes_groupbySize s.dataframe s.column_name
    rw [hgs] at hsum
    simp at hsum
    exact hrows (List.length_eq_zero.mp hsum.symm)
  have hflat : ((flatGroups (groupbySize s.dataframe s.column_name)).length : Int) =
      s.n_approx := by
    rw [flatGroups_length, sum_sizes_groupbySize]
    exact hfit
  have hbb := buildBatches_exact s.n_approx (groupbySize s.dataframe s.column_name)
    [] (groupbySize_pos _ _) hne (by simpa using hflat)
  rw [chunk_fst s hbuf, producedChunks, producedBatches, hbb]
  rw [List.map_cons, List.map_nil, List.nil_append]
  rw [filterByKeys_eq_self s.dataframe s.column_name _ fun r hr =>
    mem_flatGroups (groupbySize_pos _ _) (groupbySize_covers _ _ r hr)]

theorem claim7_witness : (chunk ⟨dfPair, 2, "k", []⟩).1 = [dfPair] :=
  claim7_exact_fit ⟨dfPair, 2, "k", []⟩ rfl (by decide) (by decide)

end DfChunk
